import Mathlib

set_option maxRecDepth 100000

/-
Verification of the polling / change-detection / deduplication core of the
HF-API library: the persistent deduplication store (HFEventStore), the TTL
cache (HFCache), the generic paginator (HFPaginator), and the watch-job poll
loops (HFWatcher).  Each Python component is embedded as executable Lean
definitions; external effects (SQLite, the network read capability, regexes,
wall-clock time, the set-enumeration order of CPython sets) appear as explicit
parameters or state.  Definitions come first, theorems follow.
-/

namespace HFSpec

/-- Event identifiers as accepted by HFEventStore operations: a Python int or
a Python str.  Every operation coerces the id with str() before use. -/
inductive EId
  | int (n : Int)
  | str (s : String)
  deriving DecidableEq, Repr

/-- Python str() applied to an event id (str(n) for an int, identity for a
string), exactly as every HFEventStore operation does before touching the
table. -/
def EId.toStr : EId → String
  | .int n => toString n
  | .str s => s

/-- One row of the SQLite `events` table:
(namespace, key, event_id, seen_at), primary key (namespace, key, event_id). -/
structure DRec where
  ns : String
  key : String
  eid : String
  seenAt : Nat
  deriving DecidableEq, Repr

namespace HFEventStore

/-- SELECT 1 FROM events WHERE namespace=? AND key=? AND event_id=? LIMIT 1:
row-existence test on the table for an already-stringified id. -/
def hasStr (ns key eid : String) (db : List DRec) : Bool :=
  db.any (fun r => r.ns == ns && r.key == key && r.eid == eid)

/-- HFEventStore.has: stringifies the id, then tests row existence. -/
def has (ns key : String) (e : EId) (db : List DRec) : Bool :=
  hasStr ns key e.toStr db

/-- HFEventStore.add: INSERT OR IGNORE of the stringified id, committed before
the call returns. -/
def add (now : Nat) (ns key : String) (e : EId) (db : List DRec) : List DRec :=
  if hasStr ns key e.toStr db then db else db ++ [⟨ns, key, e.toStr, now⟩]

/-- HFEventStore.add_if_new: under the store lock, SELECT the row; if present
return false, otherwise INSERT the row, commit, and return true. -/
def add_if_new (now : Nat) (ns key : String) (e : EId) (db : List DRec) :
    Bool × List DRec :=
  if hasStr ns key e.toStr db then (false, db)
  else (true, db ++ [⟨ns, key, e.toStr, now⟩])

/-- HFEventStore.filter_new: empty input short-circuits to []; otherwise one
SELECT event_id ... WHERE event_id IN (str_ids) query produces the set of
already-seen stringified ids, and the result keeps exactly the input ids whose
string form is not in that set, in input order. -/
def filter_new (ns key : String) (ids : List EId) (db : List DRec) : List EId :=
  if ids.isEmpty then []
  else
    let strIds := ids.map EId.toStr
    let seen := (db.filter
      (fun r => r.ns == ns && r.key == key && strIds.contains r.eid)).map (·.eid)
    ids.filter (fun e => !(seen.contains e.toStr))

/-- A step of the C1 scenario: an add_if_new call issued at some wall-clock
time, or a simulated process restart between calls. -/
inductive C1Step
  | call (now : Nat)
  | restart
  deriving DecidableEq, Repr

/-- Reopening the store after a process restart.  Every mutating operation of
HFEventStore commits its transaction before returning, so the table read back
from disk is exactly the table at the time of the last completed call. -/
def reload (db : List DRec) : List DRec := db

/-- Run a sequence of add_if_new calls on one fixed (namespace, key, id)
triple, with restarts interleaved; collects the returned booleans. -/
def runSteps (ns key : String) (e : EId) : List DRec → List C1Step →
    List Bool × List DRec
  | db, [] => ([], db)
  | db, .call now :: ops =>
      let r := add_if_new now ns key e db
      let rest := runSteps ns key e r.2 ops
      (r.1 :: rest.1, rest.2)
  | db, .restart :: ops => runSteps ns key e (reload db) ops

/-- Number of add_if_new calls in a step sequence. -/
def callCount (ops : List C1Step) : Nat :=
  ops.countP (fun s => match s with | .call _ => true | .restart => false)

/-- Expected result pattern for n calls on a fresh id: the first call reports
true, every later call reports false. -/
def onceTrue : Nat → List Bool
  | 0 => []
  | n + 1 => true :: List.replicate n false

end HFEventStore

-- ───────────────────────────── HFCache ─────────────────────────────

/-- Internal slot value of HFCache: Bug 12 stores the sentinel _NONE_CACHED
when the cached caller value is Python None, so that a cached None is
distinguishable from an absent entry. -/
inductive IVal (V : Type)
  | noneCached
  | plain (v : V)
  deriving DecidableEq, Repr

/-- One binding of the cache dict: ((namespace, key) ↦ (stored value,
expire_at)).  The dict keeps bindings in insertion order, and assignment to an
existing key keeps its position. -/
structure CEntry (V : Type) where
  ns : String
  key : String
  val : IVal V
  expire : Int
  deriving DecidableEq, Repr

/-- The mutable state of an HFCache: the configured default TTL and size bound
and the ordered store.  The hit/miss counters are pure statistics and are not
modelled. -/
structure CacheState (V : Type) where
  defaultTtl : Int
  maxsize : Nat
  store : List (CEntry V)
  deriving DecidableEq, Repr

namespace HFCache

variable {V : Type}

/-- self._store.get(cache_key): first binding for the key, if any. -/
def lookupEntry (ns key : String) (l : List (CEntry V)) : Option (CEntry V) :=
  l.find? (fun e => e.ns == ns && e.key == key)

/-- del self._store[cache_key]: drop the binding for a key. -/
def eraseKey (ns key : String) (l : List (CEntry V)) : List (CEntry V) :=
  l.filter (fun e => !(e.ns == ns && e.key == key))

/-- self._store[cache_key] = (stored, expire_at): overwrite in place when the
key is bound, else append a fresh binding at the end. -/
def setKey (ns key : String) (v : IVal V) (exp : Int) :
    List (CEntry V) → List (CEntry V)
  | [] => [⟨ns, key, v, exp⟩]
  | e :: es =>
      if e.ns == ns && e.key == key then ⟨ns, key, v, exp⟩ :: es
      else e :: setKey ns key v exp es

/-- min(self._store, key=expire_at) followed by del: Python min scans the dict
in order and keeps the earlier binding on ties, so the leftmost binding with
the smallest expire_at is removed. -/
def removeLeftmostMin : List (CEntry V) → List (CEntry V)
  | [] => []
  | e :: es =>
      if es.all (fun u => e.expire ≤ u.expire) then es
      else e :: removeLeftmostMin es

/-- Wrapping of the caller value on write: Python None (Option.none) becomes
the _NONE_CACHED sentinel, anything else is stored as is. -/
def wrapVal (value : Option V) : IVal V :=
  match value with
  | none => .noneCached
  | some v => .plain v

/-- Unwrapping on read: the sentinel goes back to Python None. -/
def unwrapVal (v : IVal V) : Option V :=
  match v with
  | .noneCached => none
  | .plain v => some v

/-- expire_at = monotonic now + (ttl if given else the default TTL). -/
def expireAt (st : CacheState V) (now : Int) (ttl : Option Int) : Int :=
  now + (match ttl with | some t => t | none => st.defaultTtl)

/-- HFCache.get at monotonic time now, with the caller-supplied miss default.
Missing key: the default.  Expired entry: deleted, then the default.
Otherwise the caller-level value (sentinel unwrapped to None). -/
def get (now : Int) (ns key : String) (dflt : Option V) (st : CacheState V) :
    Option V × CacheState V :=
  match lookupEntry ns key st.store with
  | none => (dflt, st)
  | some e =>
      if now > e.expire then
        (dflt, { st with store := eraseKey ns key st.store })
      else
        (unwrapVal e.val, st)

/-- HFCache.set at monotonic time now: compute expire_at, wrap the value, and
if a size bound is configured and the store already holds at least that many
bindings, first evict the binding with the nearest expire_at; then write the
key. -/
def set (now : Int) (ns key : String) (value : Option V) (ttl : Option Int)
    (st : CacheState V) : CacheState V :=
  let exp := expireAt st now ttl
  let stored := wrapVal value
  let store1 :=
    if st.maxsize ≠ 0 ∧ st.store.length ≥ st.maxsize then
      removeLeftmostMin st.store
    else st.store
  { st with store := setKey ns key stored exp store1 }

end HFCache

-- theorems for HFPaginator appear after its definitions below

-- ─────────────────────────── HFPaginator ───────────────────────────

namespace HFPaginator

variable {α : Type}

/-- The per-page accumulation loop of HFPaginator._paginate: append items in
order until stop_condition fires; reports the collected items and whether the
stop fired (the matching item itself is not collected). -/
def scanPage (stop : Option (α → Bool)) : List α → List α × Bool
  | [] => ([], false)
  | x :: xs =>
      match stop with
      | some p =>
          if p x then ([], true)
          else
            let r := scanPage stop xs
            (x :: r.1, r.2)
      | none =>
          let r := scanPage stop xs
          (x :: r.1, r.2)

/-- The page loop of HFPaginator._paginate from a given page number with a
given number of pages still allowed, threading the accumulated items and the
count of fetch calls made so far.  A page is fetched (counted), then: empty
page stops; stop_condition stops after the partial accumulation; a partial
page (fewer items than perpage) stops; otherwise the next page is fetched.
The inter-page sleep has no observable effect and is omitted. -/
def paginateFrom (fetch : Nat → List α) (stop : Option (α → Bool))
    (perpage : Nat) : Nat → Nat → List α → Nat → List α × Nat
  | _, 0, acc, calls => (acc, calls)
  | page, fuel + 1, acc, calls =>
      let items := fetch page
      if items.isEmpty then (acc, calls + 1)
      else
        let r := scanPage stop items
        if r.2 then (acc ++ r.1, calls + 1)
        else if items.length < perpage then (acc ++ r.1, calls + 1)
        else paginateFrom fetch stop perpage (page + 1) fuel (acc ++ r.1) (calls + 1)

/-- HFPaginator._paginate: pages 1 .. max_pages, together with the number of
fetch calls actually issued. -/
def paginate (fetch : Nat → List α) (maxPages perpage : Nat)
    (stop : Option (α → Bool)) : List α × Nat :=
  paginateFrom fetch stop perpage 1 maxPages [] 0

end HFPaginator

-- ──────────────────────────── HFWatcher ────────────────────────────

/-- A thread record as consumed by the forum/user/keyword polls: tid is
int(t.get("tid") or 0) (0 encodes a missing id), uid is kept as the string the
event payload uses, dateline is int(t.get("dateline") or 0). -/
structure HFThread where
  tid : Nat
  uid : String
  subject : String
  dateline : Nat
  deriving DecidableEq, Repr

/-- A post record as consumed by the thread/keyword polls. -/
structure HFPost where
  pid : Nat
  uid : String
  message : String
  dateline : Nat
  deriving DecidableEq, Repr

/-- The event dict passed to a watch callback, with one field per key that any
emitting site writes; kinds not using a field leave its default. -/
structure HFEvent where
  kind : String
  fid : Option Nat := none
  tid : Option Nat := none
  pid : Option Nat := none
  uid : Option String := none
  keyword : String := ""
  subject : String := ""
  snippet : String := ""
  dateline : Nat := 0
  deriving DecidableEq, Repr

namespace HFWatcher

/-- Stable insertion of x into a list already sorted by the key f, after all
existing elements with key ≤ key of x. -/
def insertLe {α : Type} (f : α → Nat) (x : α) : List α → List α
  | [] => [x]
  | y :: ys => if f y ≤ f x then y :: insertLe f x ys else x :: y :: ys

/-- Python sorted(key=f): stable ascending sort by the key f, as used for
sorting threads/posts by dateline before emitting. -/
def sortLe {α : Type} (f : α → Nat) : List α → List α
  | [] => []
  | x :: xs => insertLe f x (sortLe f xs)

/-- Python set.add on the insertion-ordered list model of a set of ints:
already-present elements leave the set unchanged, new ones are appended. -/
def addNat (s : List Nat) (n : Nat) : List Nat :=
  if n ∈ s then s else s ++ [n]

/-- set(list(s)[-keep:]): rebuild the set from the tail of an enumeration of
its elements.  CPython specifies no enumeration order for sets, so the order
is an explicit parameter enum here; a faithful enum returns a permutation of
the insertion-ordered elements. -/
def trimTail (enum : List Nat → List Nat) (keep : Nat) (s : List Nat) :
    List Nat :=
  let l := enum s
  l.drop (l.length - keep)

-- ── forum watch ──

/-- Mutable state of a _ForumWatch: the seen thread-id set (insertion
ordered) and the initialized flag. -/
structure ForumWatchState where
  seenTids : List Nat
  initialized : Bool
  deriving DecidableEq, Repr

/-- The new_thread event dict built by _poll_forum. -/
def forumEvent (fid : Nat) (t : HFThread) : HFEvent :=
  { kind := "new_thread", fid := some fid, tid := some t.tid, uid := some t.uid,
    subject := t.subject, dateline := t.dateline }

/-- First-poll seeding of _poll_forum: every fetched nonzero tid is added to
the seen set, nothing is emitted. -/
def seedTids (seen : List Nat) : List HFThread → List Nat
  | [] => seen
  | t :: ts => seedTids (if t.tid = 0 then seen else addNat seen t.tid) ts

/-- The emit loop of _poll_forum over the dateline-sorted thread list: skip a
zero or already-seen tid; otherwise add the tid to the seen set and then
invoke the callback with a new_thread event. -/
def forumEmit (fid : Nat) (seen : List Nat) :
    List HFThread → List Nat × List HFEvent
  | [] => (seen, [])
  | t :: ts =>
      if t.tid = 0 ∨ t.tid ∈ seen then forumEmit fid seen ts
      else
        let r := forumEmit fid (seen ++ [t.tid]) ts
        (r.1, forumEvent fid t :: r.2)

/-- One cycle of HFWatcher._poll_forum.  resp is the fetched thread list
(none models a missing/absent "threads" payload, which returns with no state
change).  An uninitialized watch seeds and emits nothing; an initialized
watch sorts by dateline ascending, emits one new_thread per fresh tid, and
finally trims the seen set to 500 of its elements once it exceeds 1000. -/
def poll_forum (enum : List Nat → List Nat) (fid : Nat) (w : ForumWatchState)
    (resp : Option (List HFThread)) : ForumWatchState × List HFEvent :=
  match resp with
  | none => (w, [])
  | some threads =>
      if !w.initialized then
        ({ seenTids := seedTids w.seenTids threads, initialized := true }, [])
      else
        let r := forumEmit fid w.seenTids (sortLe (·.dateline) threads)
        let seen2 := if r.1.length > 1000 then trimTail enum 500 r.1 else r.1
        ({ seenTids := seen2, initialized := true }, r.2)

/-- The emit loop of _poll_forum when the callback handling event number
budget + 1 of the cycle raises: the tid is added to the seen set first, the
raise then aborts the cycle (the exception is caught by the enclosing loop,
so the trim never runs and the state keeps every id added so far). -/
def forumEmitStop (fid : Nat) (seen : List Nat) :
    Nat → List HFThread → List Nat × List HFEvent
  | _, [] => (seen, [])
  | budget, t :: ts =>
      if t.tid = 0 ∨ t.tid ∈ seen then forumEmitStop fid seen budget ts
      else
        match budget with
        | 0 => (seen ++ [t.tid], [])
        | b + 1 =>
            let r := forumEmitStop fid (seen ++ [t.tid]) b ts
            (r.1, forumEvent fid t :: r.2)

-- ── thread watch ──

/-- The thread metadata fetched by _poll_thread: lastpost, numreplies and
subject, already coerced the way the code does. -/
structure ThreadMeta where
  lastpost : Nat
  numreplies : Nat
  subject : String
  deriving DecidableEq, Repr

/-- Mutable state of a _ThreadWatch: the last-post high-water mark and the
seen post-id set (insertion ordered). -/
structure ThreadWatchState where
  lastPost : Nat
  seenPids : List Nat
  deriving DecidableEq, Repr

/-- The page index _poll_thread requests for the reply fetch:
max(1, (numreplies + 1 + 9) // 10). -/
def threadLastPage (numreplies : Nat) : Nat :=
  max 1 ((numreplies + 1 + 9) / 10)

/-- The thread_reply event dict built for one post by _poll_thread; strip
models the regex-based _strip_bbcode helper. -/
def threadEvent (strip : String → String) (tid : Nat) (subject : String)
    (p : HFPost) : HFEvent :=
  { kind := "thread_reply", tid := some tid, pid := some p.pid,
    uid := some p.uid, subject := subject,
    snippet := (strip p.message).take 200, dateline := p.dateline }

/-- The emit loop of _poll_thread over the dateline-sorted posts: skip posts
at or before the old high-water mark and posts with an already-seen pid;
otherwise record the pid and emit a thread_reply event. -/
def threadEmit (strip : String → String) (tid : Nat) (subject : String)
    (baseline : Nat) (seen : List Nat) : List HFPost → List Nat × List HFEvent
  | [] => (seen, [])
  | p :: ps =>
      if p.dateline ≤ baseline then threadEmit strip tid subject baseline seen ps
      else if p.pid ∈ seen then threadEmit strip tid subject baseline seen ps
      else
        let r := threadEmit strip tid subject baseline (seen ++ [p.pid]) ps
        (r.1, threadEvent strip tid subject p :: r.2)

/-- One cycle of HFWatcher._poll_thread.  meta is the fetched thread metadata
(none: absent payload, no change).  A zero high-water mark records the
baseline silently; an unadvanced lastpost does nothing; a missing posts
payload emits one snippetless fallback event; otherwise the sorted posts are
diffed and emitted, the high-water mark advances, and the seen set is trimmed
to 250 of its elements once it exceeds 500. -/
def poll_thread (enum : List Nat → List Nat) (strip : String → String)
    (w : ThreadWatchState) (tid : Nat) (meta : Option ThreadMeta)
    (postsResp : Option (List HFPost)) : ThreadWatchState × List HFEvent :=
  match meta with
  | none => (w, [])
  | some t =>
      if w.lastPost = 0 then ({ w with lastPost := t.lastpost }, [])
      else if t.lastpost ≤ w.lastPost then (w, [])
      else
        match postsResp with
        | none =>
            ({ w with lastPost := t.lastpost },
             [{ kind := "thread_reply", tid := some tid, pid := none,
                uid := none, subject := t.subject, snippet := "",
                dateline := t.lastpost }])
        | some posts =>
            let r := threadEmit strip tid t.subject w.lastPost w.seenPids
              (sortLe (·.dateline) posts)
            let seen2 := if r.1.length > 500 then trimTail enum 250 r.1 else r.1
            ({ lastPost := t.lastpost, seenPids := seen2 }, r.2)

-- ── keyword watch ──

/-- Mutable state of a _KeywordWatch: the Bug 6 fix keeps disjoint seen sets
for thread ids and post ids. -/
structure KeywordWatchState where
  seenTids : List Nat
  seenPids : List Nat
  deriving DecidableEq, Repr

/-- The keyword_match event for a subject match: pid is None. -/
def kwSubjectEvent (patStr : String) (fid : Nat) (t : HFThread) : HFEvent :=
  { kind := "keyword_match", keyword := patStr, fid := some fid,
    tid := some t.tid, pid := none, subject := t.subject,
    snippet := t.subject, dateline := t.dateline }

/-- The keyword_match event for a post-body match: tid and pid both set. -/
def kwPostEvent (strip : String → String) (patStr : String) (fid tid : Nat)
    (subject : String) (p : HFPost) : HFEvent :=
  { kind := "keyword_match", keyword := patStr, fid := some fid,
    tid := some tid, pid := some p.pid, subject := subject,
    snippet := (strip p.message).take 200, dateline := p.dateline }

/-- The post-scanning loop of _poll_keyword for one fresh thread: posts with
an already-seen pid are skipped; a post whose body pmatch the pattern has
its pid added to the post-seen set and an event emitted; a post whose body
does not match is left untouched. -/
def kwScanPosts (pmatch : String → Bool) (strip : String → String)
    (patStr : String) (fid tid : Nat) (subject : String) (seenPids : List Nat) :
    List HFPost → List Nat × List HFEvent
  | [] => (seenPids, [])
  | p :: ps =>
      if p.pid ∈ seenPids then
        kwScanPosts pmatch strip patStr fid tid subject seenPids ps
      else if pmatch p.message then
        let r := kwScanPosts pmatch strip patStr fid tid subject
          (seenPids ++ [p.pid]) ps
        (r.1, kwPostEvent strip patStr fid tid subject p :: r.2)
      else
        kwScanPosts pmatch strip patStr fid tid subject seenPids ps

/-- The thread loop of _poll_keyword for one forum, in fetched order (no
sort): a zero or seen tid is skipped; a subject match marks the tid seen and
emits; a thread older than the 3600 s freshness window is marked seen and
skipped; otherwise the posts are fetched (a missing payload skips the thread
without marking it) and scanned, and the tid is marked seen afterwards. -/
def kwThreads (pmatch : String → Bool) (strip : String → String)
    (patStr : String) (now : Int) (fid : Nat)
    (fetchPosts : Nat → Option (List HFPost)) (st : KeywordWatchState) :
    List HFThread → KeywordWatchState × List HFEvent
  | [] => (st, [])
  | t :: ts =>
      if t.tid = 0 ∨ t.tid ∈ st.seenTids then
        kwThreads pmatch strip patStr now fid fetchPosts st ts
      else if pmatch t.subject then
        let st' : KeywordWatchState :=
          { st with seenTids := st.seenTids ++ [t.tid] }
        let r := kwThreads pmatch strip patStr now fid fetchPosts st' ts
        (r.1, kwSubjectEvent patStr fid t :: r.2)
      else if now - (t.dateline : Int) > 3600 then
        kwThreads pmatch strip patStr now fid fetchPosts
          { st with seenTids := st.seenTids ++ [t.tid] } ts
      else
        match fetchPosts t.tid with
        | none => kwThreads pmatch strip patStr now fid fetchPosts st ts
        | some posts =>
            let rp := kwScanPosts pmatch strip patStr fid t.tid t.subject
              st.seenPids posts
            let st' : KeywordWatchState :=
              { seenTids := st.seenTids ++ [t.tid], seenPids := rp.1 }
            let r := kwThreads pmatch strip patStr now fid fetchPosts st' ts
            (r.1, rp.2 ++ r.2)

/-- The forum loop of _poll_keyword: each configured fid in order; a missing
threads payload skips that forum. -/
def kwFids (pmatch : String → Bool) (strip : String → String)
    (patStr : String) (now : Int) (fetchPosts : Nat → Option (List HFPost))
    (fetchThreads : Nat → Option (List HFThread)) (st : KeywordWatchState) :
    List Nat → KeywordWatchState × List HFEvent
  | [] => (st, [])
  | fid :: fids =>
      match fetchThreads fid with
      | none => kwFids pmatch strip patStr now fetchPosts fetchThreads st fids
      | some threads =>
          let r := kwThreads pmatch strip patStr now fid fetchPosts st threads
          let r2 := kwFids pmatch strip patStr now fetchPosts fetchThreads
            r.1 fids
          (r2.1, r.2 ++ r2.2)

/-- One cycle of HFWatcher._poll_keyword: the forum loop over the configured
fids (an empty fid list yields no events, as in the code, which logs and
returns), followed by the bound on both seen sets (trim to 1000 of the
elements once 2000 is exceeded). -/
def poll_keyword (enum : List Nat → List Nat) (pmatch : String → Bool)
    (strip : String → String) (patStr : String) (now : Int)
    (fetchPosts : Nat → Option (List HFPost))
    (fetchThreads : Nat → Option (List HFThread)) (st : KeywordWatchState)
    (fids : List Nat) : KeywordWatchState × List HFEvent :=
  let r := kwFids pmatch strip patStr now fetchPosts fetchThreads st fids
  let tids2 :=
    if r.1.seenTids.length > 2000 then trimTail enum 1000 r.1.seenTids
    else r.1.seenTids
  let pids2 :=
    if r.1.seenPids.length > 2000 then trimTail enum 1000 r.1.seenPids
    else r.1.seenPids
  (⟨tids2, pids2⟩, r.2)

end HFWatcher

-- ═══════════════════════════ THEOREMS ═══════════════════════════

namespace HFEventStore

theorem hasStr_add_if_new_self (now : Nat) (ns key : String) (e : EId)
    (db : List DRec) :
    hasStr ns key e.toStr (add_if_new now ns key e db).2 = true := by
  unfold add_if_new
  by_cases h : hasStr ns key e.toStr db = true
  · simp [h]
  · simp only [h, Bool.false_eq_true, if_neg, ite_false]
    simp [hasStr, List.any_append]

theorem runSteps_all_false (ns key : String) (e : EId) (db : List DRec)
    (ops : List C1Step) (h : hasStr ns key e.toStr db = true) :
    (runSteps ns key e db ops).1 = List.replicate (callCount ops) false := by
  induction ops generalizing db with
  | nil => simp [runSteps, callCount]
  | cons op ops ih =>
    cases op with
    | call now =>
      have hdb : add_if_new now ns key e db = (false, db) := by
        simp [add_if_new, h]
      simp only [runSteps, hdb]
      rw [ih db h]
      simp [callCount, List.countP_cons, List.replicate_succ]
    | restart =>
      simp only [runSteps, reload]
      rw [ih db h]
      simp [callCount, List.countP_cons]

/-- C1. For a fixed (namespace, key, id) triple, in any sequence of
add_if_new calls with process restarts interleaved arbitrarily (the store
being reloaded from its committed state at each restart), exactly the first
call returns true and every subsequent call returns false, provided the id
was not initially in the store. -/
theorem C1_add_if_new_exactly_first (ns key : String) (e : EId)
    (db : List DRec) (ops : List C1Step)
    (h : hasStr ns key e.toStr db = false) :
    (runSteps ns key e db ops).1 = onceTrue (callCount ops) := by
  induction ops generalizing db with
  | nil => simp [runSteps, callCount, onceTrue]
  | cons op ops ih =>
    cases op with
    | call now =>
      have hdb : add_if_new now ns key e db =
          (true, db ++ [⟨ns, key, e.toStr, now⟩]) := by
        simp [add_if_new, h]
      simp only [runSteps, hdb]
      have h2 : hasStr ns key e.toStr (db ++ [⟨ns, key, e.toStr, now⟩]) = true := by
        simp [hasStr, List.any_append]
      rw [runSteps_all_false ns key e _ ops h2]
      simp [callCount, List.countP_cons, onceTrue]
    | restart =>
      simp only [runSteps, reload]
      rw [ih db h]
      simp [callCount, List.countP_cons]

/-- C1 witness: from an empty store, a call, a restart, and two more calls on
the same triple yield results true, false, false. -/
theorem C1_witness :
    (runSteps "thread_replies" "tid_1" (.int 5) []
      [.call 1, .restart, .call 2, .call 3]).1 = [true, false, false] := by
  have h := C1_add_if_new_exactly_first "thread_replies" "tid_1" (.int 5) []
    [.call 1, .restart, .call 2, .call 3] (by decide)
  exact h.trans (by decide)

theorem filter_new_eq (ns key : String) (ids : List EId) (db : List DRec) :
    filter_new ns key ids db = ids.filter (fun e => !(has ns key e db)) := by
  unfold filter_new
  by_cases hids : ids.isEmpty = true
  · rw [List.isEmpty_iff] at hids
    simp [hids]
  · rw [if_neg hids]
    apply List.filter_congr
    intro e he
    have hmem : (((db.filter (fun r => r.ns == ns && r.key == key &&
        (ids.map EId.toStr).contains r.eid)).map (·.eid)).contains e.toStr)
        = has ns key e db := by
      rw [Bool.eq_iff_iff]
      simp only [List.contains, List.elem_eq_mem, decide_eq_true_eq,
        List.mem_map, List.mem_filter, has, hasStr, List.any_eq_true,
        Bool.and_eq_true, beq_iff_eq]
      constructor
      · rintro ⟨r, ⟨hr, ⟨⟨hns, hkey⟩, _⟩⟩, heq⟩
        exact ⟨r, hr, ⟨hns, hkey⟩, heq⟩
      · rintro ⟨r, hr, ⟨hns, hkey⟩, heq⟩
        refine ⟨r, ⟨hr, ⟨⟨hns, hkey⟩, ?_⟩⟩, heq⟩
        rw [heq]
        exact ⟨e, he, rfl⟩
    rw [hmem]

/-- C3. filter_new returns a subsequence of the input ids in their original
order, namely exactly the input list minus every id for which has returns
true at the time of the call. -/
theorem C3_filter_new_subseq_minus_has (ns key : String) (ids : List EId)
    (db : List DRec) :
    List.Sublist (filter_new ns key ids db) ids ∧
    filter_new ns key ids db = ids.filter (fun e => !(has ns key e db)) := by
  refine ⟨?_, filter_new_eq ns key ids db⟩
  rw [filter_new_eq ns key ids db]
  exact List.filter_sublist ids

theorem hasStr_add_self (now : Nat) (ns key : String) (e : EId)
    (db : List DRec) :
    hasStr ns key e.toStr (add now ns key e db) = true := by
  unfold add
  by_cases h : hasStr ns key e.toStr db = true
  · simp [h]
  · simp only [h, Bool.false_eq_true, ite_false]
    simp [hasStr, List.any_append]

/-- C10. Every store operation coerces the event id with str() first, so an
integer n and the string str(n) name the same identifier: after add of the
integer, has on the string form is true, add_if_new on the string form is
false, and filter_new drops every input id whose string form is str(n); the
same holds with the roles of the integer and the string swapped. -/
theorem C10_int_str_coercion (ns key : String) (n : Int) (db : List DRec)
    (now now2 : Nat) (ids : List EId) :
    (has ns key (.str (toString n)) (add now ns key (.int n) db) = true)
    ∧ ((add_if_new now2 ns key (.str (toString n))
          (add now ns key (.int n) db)).1 = false)
    ∧ (has ns key (.int n) (add now ns key (.str (toString n)) db) = true)
    ∧ ((add_if_new now2 ns key (.int n)
          (add now ns key (.str (toString n)) db)).1 = false)
    ∧ (∀ e ∈ ids, e.toStr = toString n →
        e ∉ filter_new ns key ids (add now ns key (.int n) db))
    ∧ (∀ e ∈ ids, e.toStr = toString n →
        e ∉ filter_new ns key ids (add now ns key (.str (toString n)) db)) := by
  have h1 : has ns key (.str (toString n)) (add now ns key (.int n) db) = true :=
    hasStr_add_self now ns key (.int n) db
  have h3 : has ns key (.int n) (add now ns key (.str (toString n)) db) = true :=
    hasStr_add_self now ns key (.str (toString n)) db
  refine ⟨h1, ?_, h3, ?_, ?_, ?_⟩
  · simp only [add_if_new]
    have h1' : hasStr ns key (EId.str (toString n)).toStr
        (add now ns key (EId.int n) db) = true := h1
    rw [if_pos h1']
  · simp only [add_if_new]
    have h3' : hasStr ns key (EId.int n).toStr
        (add now ns key (EId.str (toString n)) db) = true := h3
    rw [if_pos h3']
  · intro e he heq hmem
    rw [filter_new_eq] at hmem
    have := (List.mem_filter.mp hmem).2
    have hh : has ns key e (add now ns key (.int n) db) = true := by
      show hasStr ns key e.toStr _ = true
      rw [heq]
      exact h1
    rw [hh] at this
    simp at this
  · intro e he heq hmem
    rw [filter_new_eq] at hmem
    have := (List.mem_filter.mp hmem).2
    have hh : has ns key e (add now ns key (.str (toString n)) db) = true := by
      show hasStr ns key e.toStr _ = true
      rw [heq]
      exact h3
    rw [hh] at this
    simp at this

/-- C10 witness at one concrete input: the id 7 recorded as a string blocks
the integer 7 in filter_new, and the id 7 recorded as an integer is seen
under its string form. -/
theorem C10_witness :
    (.int 7 : EId) ∉ filter_new "ns" "k" [.int 7, .str "7", .str "x"]
      (add 0 "ns" "k" (.str "7") [])
    ∧ has "ns" "k" (.str "7") (add 0 "ns" "k" (.int 7) []) = true := by
  have h := C10_int_str_coercion "ns" "k" 7 [] 0 1 [.int 7, .str "7", .str "x"]
  exact ⟨h.2.2.2.2.2 (.int 7) (by decide) rfl, h.1⟩

end HFEventStore

namespace HFCache

variable {V : Type}

theorem lookupEntry_setKey (ns key : String) (v : IVal V) (exp : Int)
    (l : List (CEntry V)) :
    lookupEntry ns key (setKey ns key v exp l) = some ⟨ns, key, v, exp⟩ := by
  induction l with
  | nil => simp [setKey, lookupEntry, List.find?]
  | cons e es ih =>
    by_cases h : (e.ns == ns && e.key == key) = true
    · simp [setKey, h, lookupEntry, List.find?]
    · simp only [setKey, h, Bool.false_eq_true, ite_false]
      simpa [lookupEntry, List.find?, h] using ih

/-- C5. After set(ns, k, None, ttl = t) at monotonic time now, a get within
the TTL (now2 ≤ now + t) returns logical None, never the caller-supplied miss
default, and a get after the TTL (now2 > now + t) returns the miss
default. -/
theorem C5_cached_none_within_ttl (st : CacheState V) (ns key : String)
    (t now now2 : Int) (dflt : Option V) (ht : 0 < t) :
    (now2 ≤ now + t →
      (get now2 ns key dflt (set now ns key none (some t) st)).1 = none)
    ∧ (now2 > now + t →
      (get now2 ns key dflt (set now ns key none (some t) st)).1 = dflt) := by
  have hstore : (set now ns key none (some t) st).store
      = setKey ns key IVal.noneCached (now + t)
          (if st.maxsize ≠ 0 ∧ st.store.length ≥ st.maxsize then
            removeLeftmostMin st.store
          else st.store) := rfl
  constructor
  · intro hle
    simp only [get, hstore, lookupEntry_setKey]
    rw [if_neg (not_lt.mpr hle)]
    rfl
  · intro hgt
    simp only [get, hstore, lookupEntry_setKey]
    rw [if_pos hgt]

/-- C5 witness: with a 60 second TTL set at time 0, a get at time 60 yields
logical None rather than the miss default 9, and a get at time 61 yields the
miss default. -/
theorem C5_witness :
    (get 60 "user" "k" (some 9)
      (set 0 "user" "k" none (some 60) (⟨300, 0, []⟩ : CacheState Nat))).1 = none
    ∧ (get 61 "user" "k" (some 9)
      (set 0 "user" "k" none (some 60) (⟨300, 0, []⟩ : CacheState Nat))).1
        = some 9 := by
  have h1 := C5_cached_none_within_ttl (⟨300, 0, []⟩ : CacheState Nat)
    "user" "k" 60 0 60 (some 9) (by norm_num)
  have h2 := C5_cached_none_within_ttl (⟨300, 0, []⟩ : CacheState Nat)
    "user" "k" 60 0 61 (some 9) (by norm_num)
  exact ⟨h1.1 (by norm_num), h2.2 (by norm_num)⟩

/-- C8 counterexample.  Cache with maxsize 2 holding a (expire 20) and
b (expire 10); overwriting the already-present key a evicts b, although the
overwrite does not increase the entry count: before the overwrite a get of b
returns its value 2, afterwards it returns the miss default 99.  This refutes
the claim that a set overwriting an already-present key never evicts another
entry. -/
theorem C8_counterexample :
    (get 5 "f" "b" (some 99)
      (set 0 "f" "b" (some 2) (some 10)
        (set 0 "f" "a" (some 1) (some 20) (⟨300, 2, []⟩ : CacheState Nat)))).1
      = some 2
    ∧ (get 5 "f" "b" (some 99)
      (set 0 "f" "a" (some 3) (some 30)
        (set 0 "f" "b" (some 2) (some 10)
          (set 0 "f" "a" (some 1) (some 20)
            (⟨300, 2, []⟩ : CacheState Nat))))).1 = some 99 := by
  constructor <;> rfl

theorem removeLeftmostMin_spec (l : List (CEntry V)) (hne : l ≠ []) :
    ∃ pre e post, l = pre ++ e :: post
      ∧ removeLeftmostMin l = pre ++ post
      ∧ (∀ u ∈ l, e.expire ≤ u.expire)
      ∧ (∀ u ∈ pre, e.expire < u.expire) := by
  induction l with
  | nil => cases hne rfl
  | cons e es ih =>
    by_cases h : es.all (fun u => e.expire ≤ u.expire) = true
    · refine ⟨[], e, es, rfl, ?_, ?_, ?_⟩
      · simp [removeLeftmostMin, h]
      · intro u hu
        rcases List.mem_cons.mp hu with h1 | h2
        · rw [h1]
        · exact of_decide_eq_true ((List.all_eq_true.mp h) u h2)
      · intro u hu
        simp at hu
    · have hne2 : es ≠ [] := by
        intro he
        rw [he] at h
        simp [List.all_nil] at h
      obtain ⟨pre, m, post, heq, hrm, hmin, hstrict⟩ := ih hne2
      have hex : ∃ u ∈ es, ¬ (e.expire ≤ u.expire) := by
        by_contra hall
        push_neg at hall
        exact h (List.all_eq_true.mpr (fun u hu => decide_eq_true (hall u hu)))
      obtain ⟨u, hu, hlt⟩ := hex
      have hml : m.expire < e.expire := lt_of_le_of_lt (hmin u hu) (not_le.mp hlt)
      refine ⟨e :: pre, m, post, by rw [heq]; rfl, ?_, ?_, ?_⟩
      · simp only [removeLeftmostMin, h, Bool.false_eq_true, ite_false]
        rw [hrm]
        rfl
      · intro v hv
        rcases List.mem_cons.mp hv with h1 | h2
        · rw [h1]; exact le_of_lt hml
        · exact hmin v h2
      · intro v hv
        rcases List.mem_cons.mp hv with h1 | h2
        · rw [h1]; exact hml
        · exact hstrict v h2

/-- C8 amended.  A set evicts iff a size bound is configured and the store
already holds at least maxsize entries before the write, even when the set
merely overwrites an already-present key (so an overwrite at capacity can
evict another entry); when it evicts, the evicted entry is the earliest
inserted among the entries with the smallest expiration time. -/
theorem C8_amended_eviction (st : CacheState V) (now : Int) (ns key : String)
    (value : Option V) (ttl : Option Int) :
    ((st.maxsize = 0 ∨ st.store.length < st.maxsize) →
      (set now ns key value ttl st).store
        = setKey ns key (wrapVal value) (expireAt st now ttl) st.store)
    ∧ (st.maxsize ≠ 0 → st.store.length ≥ st.maxsize →
      ∃ pre e post, st.store = pre ++ e :: post
        ∧ (∀ u ∈ st.store, e.expire ≤ u.expire)
        ∧ (∀ u ∈ pre, e.expire < u.expire)
        ∧ (set now ns key value ttl st).store
            = setKey ns key (wrapVal value) (expireAt st now ttl) (pre ++ post)) := by
  constructor
  · intro hcond
    have hno : ¬ (st.maxsize ≠ 0 ∧ st.store.length ≥ st.maxsize) := by
      rcases hcond with h0 | hlt
      · intro hc
        exact hc.1 h0
      · intro hc
        exact absurd hc.2 (not_le.mpr hlt)
    simp only [set]
    rw [if_neg hno]
  · intro hms hlen
    have hne : st.store ≠ [] := by
      intro he
      rw [he] at hlen
      simp at hlen
      exact hms hlen
    obtain ⟨pre, e, post, heq, hrm, hmin, hstrict⟩ :=
      removeLeftmostMin_spec st.store hne
    refine ⟨pre, e, post, heq, hmin, hstrict, ?_⟩
    simp only [set]
    rw [if_pos ⟨hms, hlen⟩, hrm]

/-- C8 amended witness: in the maxsize 2 cache holding a (expire 20) and
b (expire 10), an overwrite of a evicts exactly b, the unique
nearest-expiry entry. -/
theorem C8_amended_witness :
    ∃ pre e post,
      (set 0 "f" "b" (some 2) (some 10)
        (set 0 "f" "a" (some 1) (some 20)
          (⟨300, 2, []⟩ : CacheState Nat))).store = pre ++ e :: post
      ∧ (∀ u ∈ (set 0 "f" "b" (some 2) (some 10)
          (set 0 "f" "a" (some 1) (some 20)
            (⟨300, 2, []⟩ : CacheState Nat))).store, e.expire ≤ u.expire)
      ∧ (∀ u ∈ pre, e.expire < u.expire)
      ∧ (set 0 "f" "a" (some 3) (some 30)
          (set 0 "f" "b" (some 2) (some 10)
            (set 0 "f" "a" (some 1) (some 20)
              (⟨300, 2, []⟩ : CacheState Nat)))).store
          = setKey "f" "a" (wrapVal (some 3))
              (expireAt (set 0 "f" "b" (some 2) (some 10)
                (set 0 "f" "a" (some 1) (some 20)
                  (⟨300, 2, []⟩ : CacheState Nat))) 0 (some 30)) (pre ++ post) :=
  (C8_amended_eviction
    (set 0 "f" "b" (some 2) (some 10)
      (set 0 "f" "a" (some 1) (some 20) (⟨300, 2, []⟩ : CacheState Nat)))
    0 "f" "a" (some 3) (some 30)).2 (by decide) (by decide)

end HFCache

namespace HFPaginator

variable {α : Type}

theorem scanPage_none (l : List α) : scanPage (α := α) none l = (l, false) := by
  induction l with
  | nil => rfl
  | cons x xs ih => simp [scanPage, ih]

theorem paginateFrom_full_partial (fetch : Nat → List α) (perpage : Nat) :
    ∀ (m page fuel : Nat) (acc : List α) (calls : Nat), m < fuel →
    (∀ j, j < m → (fetch (page + j)).length = perpage) →
    (fetch (page + m)).length < perpage →
    paginateFrom fetch none perpage page fuel acc calls
      = (acc ++ ((List.range' page (m + 1)).map fetch).flatten, calls + (m + 1)) := by
  intro m
  induction m with
  | zero =>
    intro page fuel acc calls hm _ hlast
    obtain ⟨fuel', rfl⟩ : ∃ f, fuel = f + 1 :=
      ⟨fuel - 1, (Nat.succ_pred_eq_of_pos hm).symm⟩
    rw [Nat.add_zero] at hlast
    by_cases hemp : (fetch page).isEmpty = true
    · have : fetch page = [] := List.isEmpty_iff.mp hemp
      simp [paginateFrom, hemp, List.range'_succ, this]
    · simp only [paginateFrom, hemp, Bool.false_eq_true, ite_false,
        scanPage_none, if_pos hlast]
      simp [List.range'_succ]
  | succ m ih =>
    intro page fuel acc calls hm hfull hlast
    obtain ⟨fuel', rfl⟩ : ∃ f, fuel = f + 1 :=
      ⟨fuel - 1, (Nat.succ_pred_eq_of_pos (Nat.lt_of_le_of_lt (Nat.zero_le _) hm)).symm⟩
    have h0 : (fetch page).length = perpage := by
      have := hfull 0 (Nat.succ_pos m)
      rwa [Nat.add_zero] at this
    have hpp : 0 < perpage := Nat.lt_of_le_of_lt (Nat.zero_le _) hlast
    have hemp : (fetch page).isEmpty = false := by
      rw [List.isEmpty_eq_false_iff_exists_mem]
      have : 0 < (fetch page).length := h0 ▸ hpp
      exact List.exists_mem_of_length_pos this
    simp only [paginateFrom, hemp, Bool.false_eq_true, ite_false, scanPage_none,
      h0, Nat.lt_irrefl, if_neg, if_false]
    have hfull' : ∀ j, j < m → (fetch (page + 1 + j)).length = perpage := by
      intro j hj
      have := hfull (j + 1) (Nat.succ_lt_succ hj)
      rwa [show page + (j + 1) = page + 1 + j by omega] at this
    have hlast' : (fetch (page + 1 + m)).length < perpage := by
      rwa [show page + 1 + m = page + (m + 1) by omega]
    have hrec := ih (page + 1) fuel' (acc ++ fetch page) (calls + 1)
      (Nat.lt_of_succ_lt_succ hm) hfull' hlast'
    rw [hrec, show List.range' page (m + 1 + 1) = page :: List.range' (page + 1) (m + 1)
      from List.range'_succ page (m + 1) 1]
    rw [Prod.mk.injEq]
    constructor
    · simp [List.append_assoc]
    · omega

theorem paginateFrom_all_full (fetch : Nat → List α) (perpage : Nat)
    (hpp : 0 < perpage) :
    ∀ (fuel page : Nat) (acc : List α) (calls : Nat),
    (∀ j, j < fuel → (fetch (page + j)).length = perpage) →
    paginateFrom fetch none perpage page fuel acc calls
      = (acc ++ ((List.range' page fuel).map fetch).flatten, calls + fuel) := by
  intro fuel
  induction fuel with
  | zero => intro page acc calls _; simp [paginateFrom]
  | succ fuel ih =>
    intro page acc calls hfull
    have h0 : (fetch page).length = perpage := by
      have := hfull 0 (Nat.succ_pos fuel)
      rwa [Nat.add_zero] at this
    have hemp : (fetch page).isEmpty = false := by
      rw [List.isEmpty_eq_false_iff_exists_mem]
      have : 0 < (fetch page).length := h0 ▸ hpp
      exact List.exists_mem_of_length_pos this
    simp only [paginateFrom, hemp, Bool.false_eq_true, ite_false, scanPage_none,
      h0, Nat.lt_irrefl, if_neg, if_false]
    have hfull' : ∀ j, j < fuel → (fetch (page + 1 + j)).length = perpage := by
      intro j hj
      have := hfull (j + 1) (Nat.succ_lt_succ hj)
      rwa [show page + (j + 1) = page + 1 + j by omega] at this
    rw [ih (page + 1) (acc ++ fetch page) (calls + 1) hfull']
    rw [List.range'_succ]
    simp [List.append_assoc]
    omega

/-- C4. The paginator walk stops at the first page that is empty or shorter
than the requested page size (issuing no further fetch), and otherwise stops
at max_pages: if pages 1..k-1 are full and page k (within max_pages) is
partial or empty, the walk returns the concatenation of pages 1..k using
exactly k fetch calls; if every page through max_pages is full, it returns
pages 1..max_pages using exactly max_pages calls. -/
theorem C4_paginator_termination (fetch : Nat → List α)
    (perpage maxPages k : Nat) :
    (0 < k → k ≤ maxPages →
      (∀ j, 1 ≤ j → j < k → (fetch j).length = perpage) →
      (fetch k).length < perpage →
      paginate fetch maxPages perpage none
        = (((List.range' 1 k).map fetch).flatten, k))
    ∧ ((∀ j, 1 ≤ j → j ≤ maxPages → (fetch j).length = perpage) →
      0 < perpage →
      paginate fetch maxPages perpage none
        = (((List.range' 1 maxPages).map fetch).flatten, maxPages)) := by
  constructor
  · intro hk hkm hfull hlast
    have h := paginateFrom_full_partial fetch perpage (k - 1) 1 maxPages [] 0
      (by omega)
      (by
        intro j hj
        exact hfull (1 + j) (by omega) (by omega))
      (by rwa [show 1 + (k - 1) = k by omega])
    rw [show k - 1 + 1 = k by omega] at h
    simpa [paginate] using h
  · intro hfull hpp
    have h := paginateFrom_all_full fetch perpage hpp maxPages 1 [] 0
      (by
        intro j hj
        exact hfull (1 + j) (by omega) (by omega))
    simpa [paginate] using h

/-- C4 witness: a fetch function returning pages of sizes 20, 20, 7 (and full
pages beyond, which are never requested) yields all 47 items in order with
exactly 3 fetch calls. -/
theorem C4_witness :
    paginate
      (fun p => if p = 1 then List.range 20 else if p = 2 then List.range' 20 20
        else if p = 3 then List.range' 40 7 else List.range' 100 20)
      50 20 none = (List.range 47, 3) := by
  have h := (C4_paginator_termination
    (fun p => if p = 1 then List.range 20 else if p = 2 then List.range' 20 20
      else if p = 3 then List.range' 40 7 else List.range' 100 20)
    20 50 3).1 (by norm_num) (by norm_num)
    (by
      intro j h1 h2
      interval_cases j <;> rfl)
    (by norm_num)
  exact h.trans (by decide)

end HFPaginator

namespace HFWatcher

theorem insertLe_perm {α : Type} (f : α → Nat) (x : α) (l : List α) :
    (insertLe f x l).Perm (x :: l) := by
  induction l with
  | nil => exact List.Perm.refl _
  | cons y ys ih =>
    by_cases h : f y ≤ f x
    · simp only [insertLe, if_pos h]
      exact (ih.cons y).trans (List.Perm.swap x y ys)
    · simp only [insertLe, if_neg h]
      exact List.Perm.refl _

theorem sortLe_perm {α : Type} (f : α → Nat) (l : List α) :
    (sortLe f l).Perm l := by
  induction l with
  | nil => exact List.Perm.refl _
  | cons x xs ih =>
    exact (insertLe_perm f x (sortLe f xs)).trans (ih.cons x)

theorem insertLe_pairwise {α : Type} (f : α → Nat) (x : α) (l : List α)
    (hp : l.Pairwise (fun a b => f a ≤ f b)) :
    (insertLe f x l).Pairwise (fun a b => f a ≤ f b) := by
  induction l with
  | nil => simp [insertLe]
  | cons y ys ih =>
    rcases List.pairwise_cons.mp hp with ⟨hy, hys⟩
    by_cases h : f y ≤ f x
    · simp only [insertLe, if_pos h]
      rw [List.pairwise_cons]
      refine ⟨?_, ih hys⟩
      intro z hz
      rcases List.mem_cons.mp ((insertLe_perm f x ys).mem_iff.mp hz) with rfl | hz2
      · exact h
      · exact hy z hz2
    · simp only [insertLe, if_neg h]
      rw [List.pairwise_cons]
      constructor
      · intro z hz
        rcases List.mem_cons.mp hz with rfl | hz2
        · exact le_of_lt (not_le.mp h)
        · exact le_trans (le_of_lt (not_le.mp h)) (hy z hz2)
      · exact hp

theorem sortLe_pairwise {α : Type} (f : α → Nat) (l : List α) :
    (sortLe f l).Pairwise (fun a b => f a ≤ f b) := by
  induction l with
  | nil => simp [sortLe]
  | cons x xs ih => exact insertLe_pairwise f x (sortLe f xs) ih

theorem mem_addNat_self (s : List Nat) (n : Nat) : n ∈ addNat s n := by
  unfold addNat
  by_cases h : n ∈ s
  · simpa [h]
  · simp [h]

theorem mem_addNat_of_mem (s : List Nat) (n x : Nat) (hx : x ∈ s) :
    x ∈ addNat s n := by
  unfold addNat
  by_cases h : n ∈ s
  · simpa [h]
  · simp [h, hx]

theorem mem_seedTids_of_mem :
    ∀ (ts : List HFThread) (seen : List Nat) (x : Nat), x ∈ seen →
      x ∈ seedTids seen ts := by
  intro ts
  induction ts with
  | nil => intro seen x hx; simpa [seedTids]
  | cons t ts ih =>
    intro seen x hx
    simp only [seedTids]
    by_cases h : t.tid = 0
    · rw [if_pos h]; exact ih seen x hx
    · rw [if_neg h]; exact ih _ x (mem_addNat_of_mem seen t.tid x hx)

theorem mem_seedTids_self :
    ∀ (ts : List HFThread) (seen : List Nat) (t : HFThread), t ∈ ts →
      t.tid ≠ 0 → t.tid ∈ seedTids seen ts := by
  intro ts
  induction ts with
  | nil => intro seen t ht; cases ht
  | cons u ts ih =>
    intro seen t ht h0
    rcases List.mem_cons.mp ht with rfl | ht2
    · simp only [seedTids, if_neg h0]
      exact mem_seedTids_of_mem ts _ t.tid (mem_addNat_self seen t.tid)
    · simp only [seedTids]
      by_cases h : u.tid = 0
      · rw [if_pos h]; exact ih seen t ht2 h0
      · rw [if_neg h]; exact ih _ t ht2 h0

theorem forumEmit_countP_seen (fid tid : Nat) :
    ∀ (ts : List HFThread) (seen : List Nat), tid ∈ seen →
      ((forumEmit fid seen ts).2.countP
        (fun e => decide (e.tid = some tid))) = 0 := by
  intro ts
  induction ts with
  | nil => intro seen _; simp [forumEmit]
  | cons t ts ih =>
    intro seen h
    by_cases hc : t.tid = 0 ∨ t.tid ∈ seen
    · simp only [forumEmit, if_pos hc]
      exact ih seen h
    · simp only [forumEmit, if_neg hc]
      rw [List.countP_cons]
      have ht : t.tid ≠ tid := by
        rintro rfl
        exact hc (Or.inr h)
      rw [ih (seen ++ [t.tid]) (List.mem_append_left _ h)]
      simp [forumEvent, ht]

theorem forumEmit_countP_notmem (fid tid : Nat) :
    ∀ (ts : List HFThread) (seen : List Nat), tid ∉ ts.map (·.tid) →
      ((forumEmit fid seen ts).2.countP
        (fun e => decide (e.tid = some tid))) = 0 := by
  intro ts
  induction ts with
  | nil => intro seen _; simp [forumEmit]
  | cons t ts ih =>
    intro seen h
    simp only [List.map_cons, List.mem_cons, not_or] at h
    by_cases hc : t.tid = 0 ∨ t.tid ∈ seen
    · simp only [forumEmit, if_pos hc]
      exact ih seen h.2
    · simp only [forumEmit, if_neg hc]
      rw [List.countP_cons, ih (seen ++ [t.tid]) h.2]
      have ht : t.tid ≠ tid := fun he => h.1 he.symm
      simp [forumEvent, ht]

theorem forumEmit_countP_new (fid tid : Nat) :
    ∀ (ts : List HFThread) (seen : List Nat), tid ∉ seen →
      tid ∈ ts.map (·.tid) → (∀ t ∈ ts, t.tid ≠ 0) →
      ((forumEmit fid seen ts).2.countP
        (fun e => decide (e.tid = some tid))) = 1 := by
  intro ts
  induction ts with
  | nil => intro seen _ hmem _; cases hmem
  | cons t ts ih =>
    intro seen hnot hmem hz
    by_cases he : t.tid = tid
    · have hc : ¬ (t.tid = 0 ∨ t.tid ∈ seen) := by
        rintro (h0 | hs)
        · exact hz t (List.mem_cons_self t ts) h0
        · rw [he] at hs
          exact hnot hs
      simp only [forumEmit, if_neg hc]
      rw [List.countP_cons]
      have hmem2 : tid ∈ seen ++ [t.tid] := by
        rw [he]
        exact List.mem_append_right _ (List.mem_cons_self tid [])
      rw [forumEmit_countP_seen fid tid ts _ hmem2]
      simp [forumEvent, he]
    · have hmem' : tid ∈ ts.map (·.tid) := by
        rw [List.map_cons] at hmem
        rcases List.mem_cons.mp hmem with h1 | h2
        · exact absurd h1.symm he
        · exact h2
      have hz' : ∀ u ∈ ts, u.tid ≠ 0 := fun u hu => hz u (List.mem_cons_of_mem t hu)
      by_cases hc : t.tid = 0 ∨ t.tid ∈ seen
      · simp only [forumEmit, if_pos hc]
        exact ih seen hnot hmem' hz'
      · simp only [forumEmit, if_neg hc]
        have hnot2 : tid ∉ seen ++ [t.tid] := by
          intro hmm
          rcases List.mem_append.mp hmm with h1 | h2
          · exact hnot h1
          · rcases List.mem_cons.mp h2 with h3 | h4
            · exact he h3.symm
            · cases h4
        rw [List.countP_cons, ih (seen ++ [t.tid]) hnot2 hmem' hz']
        simp [forumEvent, he]

theorem forumEmitStop_seen_mono (fid : Nat) :
    ∀ (ts : List HFThread) (b : Nat) (seen : List Nat) (x : Nat), x ∈ seen →
      x ∈ (forumEmitStop fid seen b ts).1 := by
  intro ts
  induction ts with
  | nil => intro b seen x hx; simpa [forumEmitStop]
  | cons t ts ih =>
    intro b seen x hx
    by_cases hc : t.tid = 0 ∨ t.tid ∈ seen
    · simp only [forumEmitStop, if_pos hc]
      exact ih b seen x hx
    · cases b with
      | zero =>
        simp only [forumEmitStop, if_neg hc]
        exact List.mem_append_left _ hx
      | succ b =>
        simp only [forumEmitStop, if_neg hc]
        exact ih b (seen ++ [t.tid]) x (List.mem_append_left _ hx)

theorem forumEmitStop_emitted_in_seen (fid : Nat) :
    ∀ (ts : List HFThread) (b : Nat) (seen : List Nat),
      ∀ e ∈ (forumEmitStop fid seen b ts).2, ∀ n, e.tid = some n →
        n ∈ (forumEmitStop fid seen b ts).1 := by
  intro ts
  induction ts with
  | nil => intro b seen e he; simp [forumEmitStop] at he
  | cons t ts ih =>
    intro b seen e he n hn
    by_cases hc : t.tid = 0 ∨ t.tid ∈ seen
    · simp only [forumEmitStop, if_pos hc] at he ⊢
      exact ih b seen e he n hn
    · cases b with
      | zero =>
        simp only [forumEmitStop, if_neg hc] at he
        cases he
      | succ b =>
        simp only [forumEmitStop, if_neg hc] at he ⊢
        rcases List.mem_cons.mp he with rfl | he2
        · have : n = t.tid := by
            simpa [forumEvent] using hn.symm
          rw [this]
          exact forumEmitStop_seen_mono fid ts b (seen ++ [t.tid]) t.tid
            (List.mem_append_right _ (List.mem_cons_self t.tid []))
        · exact ih b (seen ++ [t.tid]) e he2 n hn

theorem forumEmitStop_events_prefix (fid : Nat) :
    ∀ (ts : List HFThread) (b : Nat) (seen : List Nat),
      (forumEmitStop fid seen b ts).2 = (forumEmit fid seen ts).2.take b := by
  intro ts
  induction ts with
  | nil => intro b seen; simp [forumEmitStop, forumEmit]
  | cons t ts ih =>
    intro b seen
    by_cases hc : t.tid = 0 ∨ t.tid ∈ seen
    · simp only [forumEmitStop, forumEmit, if_pos hc]
      exact ih b seen
    · cases b with
      | zero =>
        simp only [forumEmitStop, forumEmit, if_neg hc]
        simp
      | succ k =>
        simp only [forumEmitStop, forumEmit, if_neg hc, List.take_succ_cons]
        rw [ih k (seen ++ [t.tid])]

theorem forumEmitStop_attempted_in_seen (fid : Nat) :
    ∀ (ts : List HFThread) (b : Nat) (seen : List Nat),
      ∀ e ∈ (forumEmit fid seen ts).2.take (b + 1), ∀ n, e.tid = some n →
        n ∈ (forumEmitStop fid seen b ts).1 := by
  intro ts
  induction ts with
  | nil => intro b seen e he; simp [forumEmit] at he
  | cons t ts ih =>
    intro b seen e he n hn
    by_cases hc : t.tid = 0 ∨ t.tid ∈ seen
    · simp only [forumEmit, if_pos hc] at he
      simp only [forumEmitStop, if_pos hc]
      exact ih b seen e he n hn
    · cases b with
      | zero =>
        simp only [forumEmit, if_neg hc, List.take_succ_cons,
          List.take_zero] at he
        simp only [forumEmitStop, if_neg hc]
        rcases List.mem_cons.mp he with rfl | hf
        · have hnt : t.tid = n := by simpa [forumEvent] using hn
          rw [← hnt]
          exact List.mem_append_right _ (List.mem_cons_self t.tid [])
        · cases hf
      | succ k =>
        simp only [forumEmit, if_neg hc, List.take_succ_cons] at he
        simp only [forumEmitStop, if_neg hc]
        rcases List.mem_cons.mp he with rfl | he2
        · have hnt : t.tid = n := by simpa [forumEvent] using hn
          rw [← hnt]
          exact forumEmitStop_seen_mono fid ts k (seen ++ [t.tid]) t.tid
            (List.mem_append_right _ (List.mem_cons_self t.tid []))
        · exact ih k (seen ++ [t.tid]) e he2 n hn

theorem poll_forum_initialized_events (enum : List Nat → List Nat) (fid : Nat)
    (s : List Nat) (ts : List HFThread) :
    (poll_forum enum fid ⟨s, true⟩ (some ts)).2
      = (forumEmit fid s (sortLe (·.dateline) ts)).2 := rfl

theorem mem_map_tid_sortLe (threads : List HFThread) (tid : Nat) :
    tid ∈ (sortLe (·.dateline) threads).map (·.tid)
      ↔ tid ∈ threads.map (·.tid) :=
  ((sortLe_perm (·.dateline) threads).map (·.tid)).mem_iff

/-- C2. Forum watch cycle: (a) the very first poll emits zero events and
seeds every fetched thread id into the seen set; (b) every subsequent poll
emits exactly one new_thread event per fetched thread id not in the seen set,
and none for already-seen or unfetched ids; (c) ids are added to the seen set
before their callback runs: a cycle whose callback number budget + 1 raises
delivers exactly the first budget events of the unaborted cycle, and every
event attempted up to and including the one whose callback raised (the first
budget + 1 events of the unaborted cycle) already has its id in the resulting
seen set, so no later poll emits any of those ids — in particular not the id
whose callback failed — again. -/
theorem C2_forum_seed_then_emit_once (enum : List Nat → List Nat) (fid : Nat)
    (w : ForumWatchState) (threads : List HFThread)
    (hz : ∀ t ∈ threads, t.tid ≠ 0) :
    (w.initialized = false →
      (poll_forum enum fid w (some threads)).2 = []
      ∧ ∀ t ∈ threads, t.tid ∈ (poll_forum enum fid w (some threads)).1.seenTids)
    ∧ (w.initialized = true → ∀ tid,
      ((tid ∈ threads.map (·.tid) ∧ tid ∉ w.seenTids →
        (poll_forum enum fid w (some threads)).2.countP
          (fun e => decide (e.tid = some tid)) = 1)
      ∧ (tid ∈ w.seenTids →
        (poll_forum enum fid w (some threads)).2.countP
          (fun e => decide (e.tid = some tid)) = 0)
      ∧ (tid ∉ threads.map (·.tid) →
        (poll_forum enum fid w (some threads)).2.countP
          (fun e => decide (e.tid = some tid)) = 0)))
    ∧ (∀ budget : Nat,
      (∀ e ∈ (forumEmitStop fid w.seenTids budget
          (sortLe (·.dateline) threads)).2, ∀ n, e.tid = some n →
        n ∈ (forumEmitStop fid w.seenTids budget
          (sortLe (·.dateline) threads)).1)
      ∧ ((forumEmitStop fid w.seenTids budget (sortLe (·.dateline) threads)).2
          = (forumEmit fid w.seenTids
              (sortLe (·.dateline) threads)).2.take budget)
      ∧ (∀ e ∈ (forumEmit fid w.seenTids
            (sortLe (·.dateline) threads)).2.take (budget + 1), ∀ n,
          e.tid = some n →
          n ∈ (forumEmitStop fid w.seenTids budget
            (sortLe (·.dateline) threads)).1)
      ∧ (∀ (threads2 : List HFThread) (enum2 : List Nat → List Nat),
        ∀ e2 ∈ (forumEmit fid w.seenTids
            (sortLe (·.dateline) threads)).2.take (budget + 1), ∀ n,
          e2.tid = some n →
          (poll_forum enum2 fid ⟨(forumEmitStop fid w.seenTids budget
              (sortLe (·.dateline) threads)).1, true⟩ (some threads2)).2.countP
            (fun e => decide (e.tid = some n)) = 0)) := by
  refine ⟨?_, ?_, ?_⟩
  · intro hinit
    have hrw : poll_forum enum fid w (some threads)
        = ({ seenTids := seedTids w.seenTids threads, initialized := true }, []) := by
      simp [poll_forum, hinit]
    rw [hrw]
    exact ⟨rfl, fun t ht => mem_seedTids_self threads w.seenTids t ht (hz t ht)⟩
  · intro hinit tid
    have hw : w = ⟨w.seenTids, true⟩ := by
      cases w
      simp_all
    rw [hw, poll_forum_initialized_events]
    have hzs : ∀ t ∈ sortLe (·.dateline) threads, t.tid ≠ 0 :=
      fun t ht => hz t ((sortLe_perm (·.dateline) threads).mem_iff.mp ht)
    refine ⟨?_, ?_, ?_⟩
    · rintro ⟨hmem, hnot⟩
      exact forumEmit_countP_new fid tid _ w.seenTids hnot
        ((mem_map_tid_sortLe threads tid).mpr hmem) hzs
    · intro hseen
      exact forumEmit_countP_seen fid tid _ w.seenTids hseen
    · intro hnm
      exact forumEmit_countP_notmem fid tid _ w.seenTids
        (fun hc => hnm ((mem_map_tid_sortLe threads tid).mp hc))
  · intro budget
    refine ⟨forumEmitStop_emitted_in_seen fid _ budget w.seenTids,
      forumEmitStop_events_prefix fid _ budget w.seenTids,
      forumEmitStop_attempted_in_seen fid _ budget w.seenTids, ?_⟩
    intro threads2 enum2 e2 he2 n hn
    have hmem : n ∈ (forumEmitStop fid w.seenTids budget
        (sortLe (·.dateline) threads)).1 :=
      forumEmitStop_attempted_in_seen fid _ budget w.seenTids e2 he2 n hn
    rw [poll_forum_initialized_events]
    exact forumEmit_countP_seen fid n _ _ hmem

/-- C2 witness: two threads fetched; the first poll emits nothing and seeds
id 5; a later poll from the seeded state emits exactly one event for the
fresh id 6 and none for the seen id 5; and if the very first callback of
that cycle (the one for id 6) raises, id 6 is nevertheless already in the
aborted cycle's seen set and a repeat poll emits nothing for it. -/
theorem C2_witness :
    (poll_forum (fun l => l) 9 ⟨[], false⟩
      (some [⟨5, "u", "s", 10⟩, ⟨6, "v", "r", 20⟩])).2 = []
    ∧ (5 : Nat) ∈ (poll_forum (fun l => l) 9 ⟨[], false⟩
      (some [⟨5, "u", "s", 10⟩, ⟨6, "v", "r", 20⟩])).1.seenTids
    ∧ (poll_forum (fun l => l) 9 ⟨[5], true⟩
      (some [⟨5, "u", "s", 10⟩, ⟨6, "v", "r", 20⟩])).2.countP
        (fun e => decide (e.tid = some 6)) = 1
    ∧ (poll_forum (fun l => l) 9 ⟨[5], true⟩
      (some [⟨5, "u", "s", 10⟩, ⟨6, "v", "r", 20⟩])).2.countP
        (fun e => decide (e.tid = some 5)) = 0
    ∧ (6 : Nat) ∈ (forumEmitStop 9 [5] 0
        (sortLe (·.dateline) [⟨5, "u", "s", 10⟩, ⟨6, "v", "r", 20⟩])).1
    ∧ (poll_forum (fun l => l) 9 ⟨(forumEmitStop 9 [5] 0
          (sortLe (·.dateline) [⟨5, "u", "s", 10⟩, ⟨6, "v", "r", 20⟩])).1, true⟩
        (some [⟨5, "u", "s", 10⟩, ⟨6, "v", "r", 20⟩])).2.countP
        (fun e => decide (e.tid = some 6)) = 0 := by
  have h1 := C2_forum_seed_then_emit_once (fun l => l) 9 ⟨[], false⟩
    [⟨5, "u", "s", 10⟩, ⟨6, "v", "r", 20⟩] (by decide)
  have h2 := C2_forum_seed_then_emit_once (fun l => l) 9 ⟨[5], true⟩
    [⟨5, "u", "s", 10⟩, ⟨6, "v", "r", 20⟩] (by decide)
  refine ⟨(h1.1 rfl).1, ?_, ?_, ?_, ?_, ?_⟩
  · exact (h1.1 rfl).2 ⟨5, "u", "s", 10⟩ (by decide)
  · exact (h2.2.1 rfl 6).1 ⟨by decide, by decide⟩
  · exact (h2.2.1 rfl 5).2.1 (by decide)
  · exact (h2.2.2 0).2.2.1 (forumEvent 9 ⟨6, "v", "r", 20⟩) (by decide) 6 rfl
  · exact (h2.2.2 0).2.2.2 [⟨5, "u", "s", 10⟩, ⟨6, "v", "r", 20⟩] (fun l => l)
      (forumEvent 9 ⟨6, "v", "r", 20⟩) (by decide) 6 rfl

theorem forumEmit_dateline_mem (fid : Nat) :
    ∀ (ts : List HFThread) (seen : List Nat),
      ∀ e ∈ (forumEmit fid seen ts).2, ∃ t ∈ ts, e.dateline = t.dateline := by
  intro ts
  induction ts with
  | nil => intro seen e he; simp [forumEmit] at he
  | cons t ts ih =>
    intro seen e he
    by_cases hc : t.tid = 0 ∨ t.tid ∈ seen
    · simp only [forumEmit, if_pos hc] at he
      obtain ⟨u, hu, he2⟩ := ih seen e he
      exact ⟨u, List.mem_cons_of_mem t hu, he2⟩
    · simp only [forumEmit, if_neg hc] at he
      rcases List.mem_cons.mp he with rfl | he2
      · exact ⟨t, List.mem_cons_self t ts, rfl⟩
      · obtain ⟨u, hu, he3⟩ := ih (seen ++ [t.tid]) e he2
        exact ⟨u, List.mem_cons_of_mem t hu, he3⟩

theorem forumEmit_pairwise (fid : Nat) :
    ∀ (ts : List HFThread) (seen : List Nat),
      ts.Pairwise (fun a b => a.dateline ≤ b.dateline) →
      (forumEmit fid seen ts).2.Pairwise
        (fun a b => a.dateline ≤ b.dateline) := by
  intro ts
  induction ts with
  | nil => intro seen _; simp [forumEmit]
  | cons t ts ih =>
    intro seen hp
    rcases List.pairwise_cons.mp hp with ⟨hd, htl⟩
    by_cases hc : t.tid = 0 ∨ t.tid ∈ seen
    · simp only [forumEmit, if_pos hc]
      exact ih seen htl
    · simp only [forumEmit, if_neg hc]
      rw [List.pairwise_cons]
      refine ⟨?_, ih (seen ++ [t.tid]) htl⟩
      intro e he
      obtain ⟨u, hu, he2⟩ := forumEmit_dateline_mem fid ts (seen ++ [t.tid]) e he
      show (forumEvent fid t).dateline ≤ e.dateline
      rw [he2]
      exact hd u hu

theorem threadEmit_dateline_mem (strip : String → String) (tid : Nat)
    (subject : String) (baseline : Nat) :
    ∀ (ps : List HFPost) (seen : List Nat),
      ∀ e ∈ (threadEmit strip tid subject baseline seen ps).2,
        ∃ p ∈ ps, e.dateline = p.dateline := by
  intro ps
  induction ps with
  | nil => intro seen e he; simp [threadEmit] at he
  | cons p ps ih =>
    intro seen e he
    by_cases h1 : p.dateline ≤ baseline
    · simp only [threadEmit, if_pos h1] at he
      obtain ⟨u, hu, he2⟩ := ih seen e he
      exact ⟨u, List.mem_cons_of_mem p hu, he2⟩
    · by_cases h2 : p.pid ∈ seen
      · simp only [threadEmit, if_neg h1, if_pos h2] at he
        obtain ⟨u, hu, he2⟩ := ih seen e he
        exact ⟨u, List.mem_cons_of_mem p hu, he2⟩
      · simp only [threadEmit, if_neg h1, if_neg h2] at he
        rcases List.mem_cons.mp he with rfl | he2
        · exact ⟨p, List.mem_cons_self p ps, rfl⟩
        · obtain ⟨u, hu, he3⟩ := ih (seen ++ [p.pid]) e he2
          exact ⟨u, List.mem_cons_of_mem p hu, he3⟩

theorem threadEmit_pairwise (strip : String → String) (tid : Nat)
    (subject : String) (baseline : Nat) :
    ∀ (ps : List HFPost) (seen : List Nat),
      ps.Pairwise (fun a b => a.dateline ≤ b.dateline) →
      (threadEmit strip tid subject baseline seen ps).2.Pairwise
        (fun a b => a.dateline ≤ b.dateline) := by
  intro ps
  induction ps with
  | nil => intro seen _; simp [threadEmit]
  | cons p ps ih =>
    intro seen hp
    rcases List.pairwise_cons.mp hp with ⟨hd, htl⟩
    by_cases h1 : p.dateline ≤ baseline
    · simp only [threadEmit, if_pos h1]
      exact ih seen htl
    · by_cases h2 : p.pid ∈ seen
      · simp only [threadEmit, if_neg h1, if_pos h2]
        exact ih seen htl
      · simp only [threadEmit, if_neg h1, if_neg h2]
        rw [List.pairwise_cons]
        refine ⟨?_, ih (seen ++ [p.pid]) htl⟩
        intro e he
        obtain ⟨u, hu, he2⟩ :=
          threadEmit_dateline_mem strip tid subject baseline ps
            (seen ++ [p.pid]) e he
        show (threadEvent strip tid subject p).dateline ≤ e.dateline
        rw [he2]
        exact hd u hu

/-- C7 counterexample.  A keyword-watch cycle over a forum whose fetched
thread list arrives as (dateline 100, dateline 50), both subjects matching
the pattern, emits its two keyword_match events in fetched order with
datelines 100 then 50 — not in non-decreasing timestamp order.  This refutes
the claim that every job kind, including the keyword watch, emits in
non-decreasing dateline order within one cycle. -/
theorem C7_counterexample :
    ¬ ((poll_keyword (fun l => l) (fun s => s == "kw") (fun s => s) "kw" 0
        (fun _ => none)
        (fun f => if f = 2 then
          some [⟨1, "", "kw", 100⟩, ⟨2, "", "kw", 50⟩] else none)
        ⟨[], []⟩ [2]).2.map (·.dateline)).Sorted (· ≤ ·) := by
  decide

/-- C7 amended.  Within a single poll cycle, the thread and forum watches
deliver their events in non-decreasing dateline order (they sort the fetched
records by dateline before diffing); the keyword watch iterates threads in
fetched order and may deliver out of order. -/
theorem C7_amended_sorted_cycles :
    (∀ (enum : List Nat → List Nat) (fid : Nat) (w : ForumWatchState)
        (resp : Option (List HFThread)),
      ((poll_forum enum fid w resp).2.map (·.dateline)).Sorted (· ≤ ·))
    ∧ (∀ (enum : List Nat → List Nat) (strip : String → String)
        (w : ThreadWatchState) (tid : Nat) (meta : Option ThreadMeta)
        (postsResp : Option (List HFPost)),
      ((poll_thread enum strip w tid meta postsResp).2.map
        (·.dateline)).Sorted (· ≤ ·)) := by
  constructor
  · intro enum fid w resp
    match resp with
    | none => exact List.sorted_nil
    | some threads =>
      obtain ⟨s, b⟩ := w
      cases b with
      | false =>
        have : (poll_forum enum fid ⟨s, false⟩ (some threads)).2 = [] := rfl
        rw [this]
        exact List.sorted_nil
      | true =>
        rw [poll_forum_initialized_events]
        exact List.pairwise_map.mpr
          (forumEmit_pairwise fid _ s (sortLe_pairwise (·.dateline) threads))
  · intro enum strip w tid meta postsResp
    match meta with
    | none => exact List.sorted_nil
    | some t =>
      by_cases h0 : w.lastPost = 0
      · have : (poll_thread enum strip w tid (some t) postsResp).2 = [] := by
          simp [poll_thread, h0]
        rw [this]
        exact List.sorted_nil
      · by_cases hle : t.lastpost ≤ w.lastPost
        · have : (poll_thread enum strip w tid (some t) postsResp).2 = [] := by
            simp [poll_thread, h0, hle]
          rw [this]
          exact List.sorted_nil
        · match postsResp with
          | none =>
            have : (poll_thread enum strip w tid (some t) none).2
                = [{ kind := "thread_reply", tid := some tid, pid := none,
                     uid := none, subject := t.subject, snippet := "",
                     dateline := t.lastpost }] := by
              simp [poll_thread, h0, hle]
            rw [this]
            exact List.sorted_singleton _
          | some posts =>
            have hev : (poll_thread enum strip w tid (some t) (some posts)).2
                = (threadEmit strip tid t.subject w.lastPost w.seenPids
                    (sortLe (·.dateline) posts)).2 := by
              simp [poll_thread, h0, hle]
            rw [hev]
            exact List.pairwise_map.mpr
              (threadEmit_pairwise strip tid t.subject w.lastPost _ w.seenPids
                (sortLe_pairwise (·.dateline) posts))

/-- C9 counterexample.  The trim is set(list(seen)[-250:]), but CPython sets
have no specified enumeration order, so list(seen) need not respect insertion
order.  With 500 previously seen pids 1..500 (in insertion order) and the
freshly emitted pid 501, the reversal enumeration — a genuine enumeration of
the set, as the Perm conjunct certifies — retains the oldest id 1 and drops
the most recently added id 501.  This refutes the claim that exactly the 250
most recently added post ids are retained. -/
theorem C9_counterexample :
    (List.reverse (List.range' 1 501)).Perm (List.range' 1 501)
    ∧ (1 : Nat) ∈ (poll_thread List.reverse (fun s => s)
        ⟨1, List.range' 1 500⟩ 7 (some ⟨10, 0, "s"⟩)
        (some [⟨501, "", "", 5⟩])).1.seenPids
    ∧ (501 : Nat) ∉ (poll_thread List.reverse (fun s => s)
        ⟨1, List.range' 1 500⟩ 7 (some ⟨10, 0, "s"⟩)
        (some [⟨501, "", "", 5⟩])).1.seenPids := by
  refine ⟨List.reverse_perm _, ?_, ?_⟩ <;> decide

/-- C9 amended.  After every thread-watch poll the seen-post-id set holds at
most 500 elements (assuming it did before, which holds inductively from the
empty initial set); whenever the emit pass leaves more than 500 elements the
set is trimmed to exactly 250 elements drawn from it — which 250 depends on
the unspecified set enumeration order, not necessarily the most recently
added. -/
theorem C9_amended_seen_bound (enum : List Nat → List Nat)
    (hperm : ∀ l : List Nat, (enum l).Perm l) (strip : String → String)
    (w : ThreadWatchState) (tid : Nat) (meta : Option ThreadMeta)
    (postsResp : Option (List HFPost)) (hb : w.seenPids.length ≤ 500) :
    (poll_thread enum strip w tid meta postsResp).1.seenPids.length ≤ 500
    ∧ (∀ (t : ThreadMeta) (posts : List HFPost), meta = some t →
        postsResp = some posts → w.lastPost ≠ 0 → w.lastPost < t.lastpost →
        500 < (threadEmit strip tid t.subject w.lastPost w.seenPids
          (sortLe (·.dateline) posts)).1.length →
        (poll_thread enum strip w tid meta postsResp).1.seenPids.length = 250
        ∧ ∀ x ∈ (poll_thread enum strip w tid meta postsResp).1.seenPids,
            x ∈ (threadEmit strip tid t.subject w.lastPost w.seenPids
              (sortLe (·.dateline) posts)).1) := by
  constructor
  · match meta with
    | none => exact hb
    | some t =>
      by_cases h0 : w.lastPost = 0
      · have : (poll_thread enum strip w tid (some t) postsResp).1.seenPids
            = w.seenPids := by
          simp [poll_thread, h0]
        rw [this]
        exact hb
      · by_cases hle : t.lastpost ≤ w.lastPost
        · have : (poll_thread enum strip w tid (some t) postsResp).1.seenPids
              = w.seenPids := by
            simp [poll_thread, h0, hle]
          rw [this]
          exact hb
        · match postsResp with
          | none =>
            have : (poll_thread enum strip w tid (some t) none).1.seenPids
                = w.seenPids := by
              simp [poll_thread, h0, hle]
            rw [this]
            exact hb
          | some posts =>
            have hseen : (poll_thread enum strip w tid (some t)
                (some posts)).1.seenPids
                = (let r := threadEmit strip tid t.subject w.lastPost w.seenPids
                    (sortLe (·.dateline) posts)
                   if r.1.length > 500 then trimTail enum 250 r.1 else r.1) := by
              simp [poll_thread, h0, hle]
            rw [hseen]
            by_cases hbig : (threadEmit strip tid t.subject w.lastPost w.seenPids
                (sortLe (·.dateline) posts)).1.length > 500
            · simp only [hbig, if_pos, ite_true, trimTail]
              rw [List.length_drop]
              have hlen := (hperm (threadEmit strip tid t.subject w.lastPost
                w.seenPids (sortLe (·.dateline) posts)).1).length_eq
              omega
            · simp only [hbig, ite_false]
              exact le_of_not_lt hbig
  · intro t posts hm hp h0 hlt hbig
    subst hm
    subst hp
    have hgt : ¬ (t.lastpost ≤ w.lastPost) := not_le.mpr hlt
    have hseen : (poll_thread enum strip w tid (some t)
        (some posts)).1.seenPids
        = trimTail enum 250 (threadEmit strip tid t.subject w.lastPost
            w.seenPids (sortLe (·.dateline) posts)).1 := by
      simp [poll_thread, h0, hgt, hbig]
    rw [hseen]
    have hlen := (hperm (threadEmit strip tid t.subject w.lastPost
      w.seenPids (sortLe (·.dateline) posts)).1).length_eq
    constructor
    · simp only [trimTail, List.length_drop]
      omega
    · intro x hx
      simp only [trimTail] at hx
      exact (hperm _).mem_iff.mp (List.mem_of_mem_drop hx)

/-- C9 amended witness: with the identity enumeration, the 500 old pids plus
one fresh pid trigger the trim, leaving exactly 250 elements. -/
theorem C9_witness :
    (poll_thread (fun l => l) (fun s => s) ⟨1, List.range' 1 500⟩ 7
      (some ⟨10, 0, "s"⟩) (some [⟨501, "", "", 5⟩])).1.seenPids.length
      = 250 := by
  have h := C9_amended_seen_bound (fun l => l) (fun l => List.Perm.refl l)
    (fun s => s) ⟨1, List.range' 1 500⟩ 7 (some ⟨10, 0, "s"⟩)
    (some [⟨501, "", "", 5⟩]) (by decide)
  exact (h.2 ⟨10, 0, "s"⟩ [⟨501, "", "", 5⟩] rfl rfl (by decide) (by decide)
    (by decide)).1

theorem exists_mem_append {α : Type} (P : α → Prop) (l1 l2 : List α) :
    (∃ e ∈ l1 ++ l2, P e) ↔ (∃ e ∈ l1, P e) ∨ (∃ e ∈ l2, P e) := by
  constructor
  · rintro ⟨e, he, hp⟩
    rcases List.mem_append.mp he with h | h
    · exact Or.inl ⟨e, h, hp⟩
    · exact Or.inr ⟨e, h, hp⟩
  · rintro (⟨e, he, hp⟩ | ⟨e, he, hp⟩)
    · exact ⟨e, List.mem_append_left _ he, hp⟩
    · exact ⟨e, List.mem_append_right _ he, hp⟩

theorem kwScanPosts_char (pm : String → Bool) (strip : String → String)
    (patStr : String) (fid tid : Nat) (subject : String) :
    ∀ (ps : List HFPost) (seen : List Nat) (pid : Nat),
      pid ∈ (kwScanPosts pm strip patStr fid tid subject seen ps).1
        ↔ pid ∈ seen
          ∨ ∃ e ∈ (kwScanPosts pm strip patStr fid tid subject seen ps).2,
              e.pid = some pid := by
  intro ps
  induction ps with
  | nil => intro seen pid; simp [kwScanPosts]
  | cons p ps ih =>
    intro seen pid
    by_cases h1 : p.pid ∈ seen
    · simp only [kwScanPosts, if_pos h1]
      exact ih seen pid
    · by_cases h2 : pm p.message = true
      · simp only [kwScanPosts, if_neg h1, if_pos h2]
        rw [ih (seen ++ [p.pid]) pid]
        constructor
        · rintro (hs | ⟨e, he, hp⟩)
          · rcases List.mem_append.mp hs with h | h
            · exact Or.inl h
            · rcases List.mem_cons.mp h with rfl | hf
              · exact Or.inr ⟨kwPostEvent strip patStr fid tid subject p,
                  List.mem_cons_self _ _, rfl⟩
              · cases hf
          · exact Or.inr ⟨e, List.mem_cons_of_mem _ he, hp⟩
        · rintro (hs | ⟨e, he, hp⟩)
          · exact Or.inl (List.mem_append_left _ hs)
          · rcases List.mem_cons.mp he with rfl | he2
            · have hpp : p.pid = pid := by simpa [kwPostEvent] using hp
              refine Or.inl (List.mem_append_right _ ?_)
              rw [← hpp]
              exact List.mem_cons_self p.pid []
            · exact Or.inr ⟨e, he2, hp⟩
      · simp only [kwScanPosts, if_neg h1, if_neg h2]
        exact ih seen pid

theorem kwScanPosts_events_tid (pm : String → Bool) (strip : String → String)
    (patStr : String) (fid tid : Nat) (subject : String) :
    ∀ (ps : List HFPost) (seen : List Nat),
      ∀ e ∈ (kwScanPosts pm strip patStr fid tid subject seen ps).2,
        e.tid = some tid := by
  intro ps
  induction ps with
  | nil => intro seen e he; simp [kwScanPosts] at he
  | cons p ps ih =>
    intro seen e he
    by_cases h1 : p.pid ∈ seen
    · simp only [kwScanPosts, if_pos h1] at he
      exact ih seen e he
    · by_cases h2 : pm p.message = true
      · simp only [kwScanPosts, if_neg h1, if_pos h2] at he
        rcases List.mem_cons.mp he with rfl | he2
        · rfl
        · exact ih (seen ++ [p.pid]) e he2
      · simp only [kwScanPosts, if_neg h1, if_neg h2] at he
        exact ih seen e he

theorem kwThreads_tids_mono (pm : String → Bool) (strip : String → String)
    (patStr : String) (now : Int) (fid : Nat)
    (fp : Nat → Option (List HFPost)) :
    ∀ (ts : List HFThread) (st : KeywordWatchState) (x : Nat),
      x ∈ st.seenTids →
      x ∈ (kwThreads pm strip patStr now fid fp st ts).1.seenTids := by
  intro ts
  induction ts with
  | nil => intro st x hx; simpa [kwThreads]
  | cons t ts ih =>
    intro st x hx
    by_cases hc : t.tid = 0 ∨ t.tid ∈ st.seenTids
    · simp only [kwThreads, if_pos hc]
      exact ih st x hx
    · by_cases hm : pm t.subject = true
      · simp only [kwThreads, if_neg hc, if_pos hm]
        exact ih _ x (List.mem_append_left _ hx)
      · by_cases hold : now - (t.dateline : Int) > 3600
        · simp only [kwThreads, if_neg hc, if_neg hm, if_pos hold]
          exact ih _ x (List.mem_append_left _ hx)
        · cases hfp : fp t.tid with
          | none =>
            simp only [kwThreads, if_neg hc, if_neg hm, if_neg hold, hfp]
            exact ih st x hx
          | some posts =>
            simp only [kwThreads, if_neg hc, if_neg hm, if_neg hold, hfp]
            exact ih _ x (List.mem_append_left _ hx)

theorem kwThreads_pids_char (pm : String → Bool) (strip : String → String)
    (patStr : String) (now : Int) (fid : Nat)
    (fp : Nat → Option (List HFPost)) :
    ∀ (ts : List HFThread) (st : KeywordWatchState) (pid : Nat),
      pid ∈ (kwThreads pm strip patStr now fid fp st ts).1.seenPids
        ↔ pid ∈ st.seenPids
          ∨ ∃ e ∈ (kwThreads pm strip patStr now fid fp st ts).2,
              e.pid = some pid := by
  intro ts
  induction ts with
  | nil => intro st pid; simp [kwThreads]
  | cons t ts ih =>
    intro st pid
    by_cases hc : t.tid = 0 ∨ t.tid ∈ st.seenTids
    · simp only [kwThreads, if_pos hc]
      exact ih st pid
    · by_cases hm : pm t.subject = true
      · simp only [kwThreads, if_neg hc, if_pos hm]
        constructor
        · intro h
          rcases (ih _ pid).mp h with hs | ⟨e, he, hp⟩
          · exact Or.inl hs
          · exact Or.inr ⟨e, List.mem_cons_of_mem _ he, hp⟩
        · rintro (hs | ⟨e, he, hp⟩)
          · exact (ih _ pid).mpr (Or.inl hs)
          · rcases List.mem_cons.mp he with rfl | he2
            · simp [kwSubjectEvent] at hp
            · exact (ih _ pid).mpr (Or.inr ⟨e, he2, hp⟩)
      · by_cases hold : now - (t.dateline : Int) > 3600
        · simp only [kwThreads, if_neg hc, if_neg hm, if_pos hold]
          exact ih _ pid
        · cases hfp : fp t.tid with
          | none =>
            simp only [kwThreads, if_neg hc, if_neg hm, if_neg hold, hfp]
            exact ih st pid
          | some posts =>
            simp only [kwThreads, if_neg hc, if_neg hm, if_neg hold, hfp]
            constructor
            · intro h
              rcases (ih _ pid).mp h with hs | ⟨e, he, hp⟩
              · rcases (kwScanPosts_char pm strip patStr fid t.tid t.subject
                    posts st.seenPids pid).mp hs with hs2 | ⟨e, he, hp⟩
                · exact Or.inl hs2
                · exact Or.inr ⟨e, List.mem_append_left _ he, hp⟩
              · exact Or.inr ⟨e, List.mem_append_right _ he, hp⟩
            · rintro (hs | ⟨e, he, hp⟩)
              · exact (ih _ pid).mpr (Or.inl
                  ((kwScanPosts_char pm strip patStr fid t.tid t.subject
                    posts st.seenPids pid).mpr (Or.inl hs)))
              · rcases List.mem_append.mp he with h | h
                · exact (ih _ pid).mpr (Or.inl
                    ((kwScanPosts_char pm strip patStr fid t.tid t.subject
                      posts st.seenPids pid).mpr (Or.inr ⟨e, h, hp⟩)))
                · exact (ih _ pid).mpr (Or.inr ⟨e, h, hp⟩)

theorem kwThreads_events_tid_in (pm : String → Bool) (strip : String → String)
    (patStr : String) (now : Int) (fid : Nat)
    (fp : Nat → Option (List HFPost)) :
    ∀ (ts : List HFThread) (st : KeywordWatchState),
      ∀ e ∈ (kwThreads pm strip patStr now fid fp st ts).2, ∀ n,
        e.tid = some n →
        n ∈ (kwThreads pm strip patStr now fid fp st ts).1.seenTids := by
  intro ts
  induction ts with
  | nil => intro st e he; simp [kwThreads] at he
  | cons t ts ih =>
    intro st e he n hn
    by_cases hc : t.tid = 0 ∨ t.tid ∈ st.seenTids
    · simp only [kwThreads, if_pos hc] at he ⊢
      exact ih st e he n hn
    · by_cases hm : pm t.subject = true
      · simp only [kwThreads, if_neg hc, if_pos hm] at he ⊢
        rcases List.mem_cons.mp he with rfl | he2
        · have hnt : t.tid = n := by simpa [kwSubjectEvent] using hn
          rw [← hnt]
          exact kwThreads_tids_mono pm strip patStr now fid fp ts _ t.tid
            (List.mem_append_right _ (List.mem_cons_self t.tid []))
        · exact ih _ e he2 n hn
      · by_cases hold : now - (t.dateline : Int) > 3600
        · simp only [kwThreads, if_neg hc, if_neg hm, if_pos hold] at he ⊢
          exact ih _ e he n hn
        · cases hfp : fp t.tid with
          | none =>
            simp only [kwThreads, if_neg hc, if_neg hm, if_neg hold, hfp] at he ⊢
            exact ih st e he n hn
          | some posts =>
            simp only [kwThreads, if_neg hc, if_neg hm, if_neg hold, hfp] at he ⊢
            rcases List.mem_append.mp he with h | h
            · have het : e.tid = some t.tid :=
                kwScanPosts_events_tid pm strip patStr fid t.tid t.subject
                  posts st.seenPids e h
              have hnt : t.tid = n := by
                rw [het] at hn
                exact Option.some.inj hn
              rw [← hnt]
              exact kwThreads_tids_mono pm strip patStr now fid fp ts _ t.tid
                (List.mem_append_right _ (List.mem_cons_self t.tid []))
            · exact ih _ e h n hn

theorem kwFids_tids_mono (pm : String → Bool) (strip : String → String)
    (patStr : String) (now : Int) (fp : Nat → Option (List HFPost))
    (ft : Nat → Option (List HFThread)) :
    ∀ (fids : List Nat) (st : KeywordWatchState) (x : Nat),
      x ∈ st.seenTids →
      x ∈ (kwFids pm strip patStr now fp ft st fids).1.seenTids := by
  intro fids
  induction fids with
  | nil => intro st x hx; simpa [kwFids]
  | cons fid fids ih =>
    intro st x hx
    cases hft : ft fid with
    | none =>
      simp only [kwFids, hft]
      exact ih st x hx
    | some threads =>
      simp only [kwFids, hft]
      exact ih _ x (kwThreads_tids_mono pm strip patStr now fid fp threads st x hx)

theorem kwFids_pids_char (pm : String → Bool) (strip : String → String)
    (patStr : String) (now : Int) (fp : Nat → Option (List HFPost))
    (ft : Nat → Option (List HFThread)) :
    ∀ (fids : List Nat) (st : KeywordWatchState) (pid : Nat),
      pid ∈ (kwFids pm strip patStr now fp ft st fids).1.seenPids
        ↔ pid ∈ st.seenPids
          ∨ ∃ e ∈ (kwFids pm strip patStr now fp ft st fids).2,
              e.pid = some pid := by
  intro fids
  induction fids with
  | nil => intro st pid; simp [kwFids]
  | cons fid fids ih =>
    intro st pid
    cases hft : ft fid with
    | none =>
      simp only [kwFids, hft]
      exact ih st pid
    | some threads =>
      simp only [kwFids, hft]
      rw [ih _ pid, kwThreads_pids_char pm strip patStr now fid fp threads st pid,
        exists_mem_append (fun e => HFEvent.pid e = some pid)
          (kwThreads pm strip patStr now fid fp st threads).2
          (kwFids pm strip patStr now fp ft
            (kwThreads pm strip patStr now fid fp st threads).1 fids).2]
      exact or_assoc

theorem kwFids_events_tid_in (pm : String → Bool) (strip : String → String)
    (patStr : String) (now : Int) (fp : Nat → Option (List HFPost))
    (ft : Nat → Option (List HFThread)) :
    ∀ (fids : List Nat) (st : KeywordWatchState),
      ∀ e ∈ (kwFids pm strip patStr now fp ft st fids).2, ∀ n,
        e.tid = some n →
        n ∈ (kwFids pm strip patStr now fp ft st fids).1.seenTids := by
  intro fids
  induction fids with
  | nil => intro st e he; simp [kwFids] at he
  | cons fid fids ih =>
    intro st e he n hn
    cases hft : ft fid with
    | none =>
      simp only [kwFids, hft] at he ⊢
      exact ih st e he n hn
    | some threads =>
      simp only [kwFids, hft] at he ⊢
      rcases List.mem_append.mp he with h | h
      · exact kwFids_tids_mono pm strip patStr now fp ft fids _ n
          (kwThreads_events_tid_in pm strip patStr now fid fp threads st e h n hn)
      · exact ih _ e h n hn

/-- C6 counterexample.  A fresh thread (tid 1, subject not matching, within
the freshness window) is scanned: its only post (pid 7, body not matching) is
pattern-tested, yet afterwards pid 7 is not in the post-seen set — only
matching posts are ever added (the code marks the thread id instead).  This
refutes the claim that every scanned unseen post is marked seen regardless of
match outcome. -/
theorem C6_counterexample :
    (1 : Nat) ∈ (poll_keyword (fun l => l) (fun s => s == "kw") (fun s => s)
        "kw" 4000 (fun t => if t = 1 then some [⟨7, "", "nope", 5⟩] else none)
        (fun f => if f = 2 then some [⟨1, "", "x", 4000⟩] else none)
        ⟨[], []⟩ [2]).1.seenTids
    ∧ (poll_keyword (fun l => l) (fun s => s == "kw") (fun s => s)
        "kw" 4000 (fun t => if t = 1 then some [⟨7, "", "nope", 5⟩] else none)
        (fun f => if f = 2 then some [⟨1, "", "x", 4000⟩] else none)
        ⟨[], []⟩ [2]).2 = []
    ∧ (7 : Nat) ∉ (poll_keyword (fun l => l) (fun s => s == "kw") (fun s => s)
        "kw" 4000 (fun t => if t = 1 then some [⟨7, "", "nope", 5⟩] else none)
        (fun f => if f = 2 then some [⟨1, "", "x", 4000⟩] else none)
        ⟨[], []⟩ [2]).1.seenPids := by
  refine ⟨?_, ?_, ?_⟩ <;> decide

/-- C6 amended.  In the keyword watch, a scanned post is added to the
post-seen set exactly when its body matches the pattern (equivalently, when a
keyword_match event carries its pid); non-matching posts are never marked.
Rescanning is instead prevented by adding the scanned thread id to the
thread-seen set: every emitted event names a thread id that is in the
thread-seen set when the cycle ends. -/
theorem C6_amended_only_matching_marked (pm : String → Bool)
    (strip : String → String) (patStr : String) (now : Int)
    (fp : Nat → Option (List HFPost)) (ft : Nat → Option (List HFThread))
    (st : KeywordWatchState) (fids : List Nat) :
    (∀ pid : Nat,
      pid ∈ (kwFids pm strip patStr now fp ft st fids).1.seenPids
        ↔ pid ∈ st.seenPids
          ∨ ∃ e ∈ (kwFids pm strip patStr now fp ft st fids).2,
              e.pid = some pid)
    ∧ (∀ e ∈ (kwFids pm strip patStr now fp ft st fids).2, ∀ n,
        e.tid = some n →
        n ∈ (kwFids pm strip patStr now fp ft st fids).1.seenTids)
    ∧ (∀ enum : List Nat → List Nat,
        (poll_keyword enum pm strip patStr now fp ft st fids).2
          = (kwFids pm strip patStr now fp ft st fids).2) :=
  ⟨fun pid => kwFids_pids_char pm strip patStr now fp ft fids st pid,
   kwFids_events_tid_in pm strip patStr now fp ft fids st,
   fun _ => rfl⟩

/-- C6 amended witness: a fresh thread whose only unseen post matches the
pattern ends the cycle with that pid in the post-seen set, hence (by the
amended characterisation) a keyword_match event carrying pid 7 was emitted. -/
theorem C6_witness :
    (7 : Nat) ∈ (⟨[], []⟩ : KeywordWatchState).seenPids
    ∨ ∃ e ∈ (kwFids (fun s => s == "kw") (fun s => s) "kw" 4000
        (fun t => if t = 1 then some [⟨7, "", "kw", 5⟩] else none)
        (fun f => if f = 2 then some [⟨1, "", "x", 4000⟩] else none)
        ⟨[], []⟩ [2]).2, e.pid = some 7 :=
  ((C6_amended_only_matching_marked (fun s => s == "kw") (fun s => s) "kw" 4000
      (fun t => if t = 1 then some [⟨7, "", "kw", 5⟩] else none)
      (fun f => if f = 2 then some [⟨1, "", "x", 4000⟩] else none)
      ⟨[], []⟩ [2]).1 7).mp (by decide)

end HFWatcher

end HFSpec
